import Mathlib

/-!
# Verification of the TF-IDF question-answering bot (`src/main.rs`)

Shallow embedding of the Rust program. Rust `HashMap`s are modelled as
association lists (`List (String × _)`); since a `HashMap` has unique keys,
theorems that need it take a `NodupKeys` hypothesis. Rust `f64` arithmetic is
modelled over `ℝ`; the one place where IEEE special values matter — the final
division of `cosine_similarity`, which can divide by zero — returns a value of
the type `Flt` (finite real, `+∞`, `-∞`, or NaN) via `fdiv`, which follows
IEEE-754 division semantics at a zero divisor. The `f64` comparison `>`
(false whenever an operand is NaN) is modelled by `Flt.gtR`, and `f64::MIN`
(the most negative finite double, `-(2^1024 - 2^971)`) by `f64Min`.
-/

namespace TBot

/-- Sparse TF-IDF vector, modelling `HashMap<String, f64>`. -/
abbrev Vec := List (String × ℝ)

/-- Lookup with default `0.0`, modelling `map.get(&word).unwrap_or(&0.0)`. -/
def vget (v : Vec) (w : String) : ℝ :=
  match v with
  | [] => 0
  | (k, x) :: rest => if k = w then x else vget rest w

/-- Keys of an association list. -/
def keysOf {β : Type} (v : List (String × β)) : List String :=
  v.map Prod.fst

/-- The keys are pairwise distinct — the invariant every Rust `HashMap` has. -/
def NodupKeys {β : Type} (v : List (String × β)) : Prop :=
  (keysOf v).Nodup

instance {β : Type} (v : List (String × β)) : Decidable (NodupKeys v) := by
  unfold NodupKeys; infer_instance

/-- Character-wise lowercasing, modelling `str::to_lowercase` (ASCII-faithful). -/
def lowerStr (s : String) : String :=
  String.mk (s.data.map Char.toLower)

/-- Split a character list on whitespace runs, dropping empty pieces:
the semantics of Rust's `split_whitespace`. `acc` holds the (reversed)
characters of the token currently being read. -/
def splitWsAux : List Char → List Char → List String
  | [], [] => []
  | [], acc => [String.mk acc.reverse]
  | c :: cs, acc =>
    if c.isWhitespace then
      if acc.isEmpty then splitWsAux cs []
      else String.mk acc.reverse :: splitWsAux cs []
    else splitWsAux cs (c :: acc)

/-- `question.to_lowercase().split_whitespace()`, the tokenization used
everywhere in the program. -/
def tokenize (s : String) : List String :=
  splitWsAux (lowerStr s).data []

/-- `*map.entry(word).or_insert(0) += 1` on an association list. -/
def bump : List (String × Nat) → String → List (String × Nat)
  | [], w => [(w, 1)]
  | (k, v) :: rest, w =>
    if k = w then (k, v + 1) :: rest else (k, v) :: bump rest w

/-- Lookup in a count table, default `0`. -/
def countOf (m : List (String × Nat)) (w : String) : Nat :=
  match m with
  | [] => 0
  | (k, v) :: rest => if k = w then v else countOf rest w

/-- The document-frequency table `word_doc_count` of `compute_tfidf`:
for each question, each *distinct* token (the Rust code collects the tokens
into a `HashSet`) bumps its count by one. -/
def word_doc_count (questions : List String) : List (String × Nat) :=
  questions.foldl (fun m q => ((tokenize q).dedup).foldl bump m) []

/-- The IDF table of `compute_tfidf`:
`idf[word] = ln(doc_count / word_doc_count[word])`. -/
noncomputable def compute_idf (questions : List String) : Vec :=
  (word_doc_count questions).map
    (fun p => (p.1, Real.log ((questions.length : ℝ) / (p.2 : ℝ))))

/-- The term-frequency counts of one document: `*tf.entry(word) += 1` over
the token list. -/
def tf_counts (ws : List String) : List (String × Nat) :=
  ws.foldl bump []

/-- TF-IDF weights from a token list:
`tfidf[word] = (count / words.len()) * idf.get(word).unwrap_or(0.0)`.
This code is duplicated verbatim in the Rust source between `compute_tfidf`
and `compute_input_vector`. -/
noncomputable def tfidf_from_tokens (idf : Vec) (ws : List String) : Vec :=
  (tf_counts ws).map
    (fun p => (p.1, ((p.2 : ℝ) / (ws.length : ℝ)) * vget idf p.1))

/-- `compute_tfidf`: returns the per-question TF-IDF vectors and the IDF
table. -/
noncomputable def compute_tfidf (qa_data : List (String × String)) :
    List (String × Vec) × Vec :=
  let idf := compute_idf (qa_data.map Prod.fst)
  (qa_data.map (fun p => (p.1, tfidf_from_tokens idf (tokenize p.1))), idf)

/-- `compute_input_vector`: the query's TF-IDF vector under the precomputed
IDF table. -/
noncomputable def compute_input_vector (input : String) (idf : Vec) : Vec :=
  tfidf_from_tokens idf (tokenize input)

/-- An `f64` result that may be a special value: the result type of the final
division in `cosine_similarity`. -/
inductive Flt where
  | fin : ℝ → Flt
  | pinf : Flt
  | ninf : Flt
  | nan : Flt

/-- IEEE-754 division of finite reals: a zero divisor gives NaN for a zero
dividend and a signed infinity otherwise (all magnitudes here stay far from
overflow, so nonzero divisors give finite results). -/
noncomputable def fdiv (x y : ℝ) : Flt :=
  if y = 0 then
    if x = 0 then .nan else if 0 < x then .pinf else .ninf
  else .fin (x / y)

/-- The `f64` comparison `a > b`: false whenever an operand is NaN. -/
def Flt.gtR : Flt → Flt → Prop
  | .nan, _ => False
  | _, .nan => False
  | .fin x, .fin y => y < x
  | .fin _, .pinf => False
  | .fin _, .ninf => True
  | .pinf, .pinf => False
  | .pinf, _ => True
  | .ninf, _ => False

noncomputable instance (a b : Flt) : Decidable (Flt.gtR a b) :=
  Classical.propDecidable _

/-- `dot_product`: iterates the entries of `v1`, looking each word up in
`v2` with default `0.0`. -/
noncomputable def dotP (v1 v2 : Vec) : ℝ :=
  (v1.map (fun p => p.2 * vget v2 p.1)).sum

/-- The squared magnitude accumulated by `cosine_similarity` (`mag1`/`mag2`
before taking square roots). -/
noncomputable def sqMag (v : Vec) : ℝ :=
  (v.map (fun p => p.2 * p.2)).sum

/-- `cosine_similarity`: `dot_product / (mag1.sqrt() * mag2.sqrt())`. -/
noncomputable def cosine_similarity (v1 v2 : Vec) : Flt :=
  fdiv (dotP v1 v2) (Real.sqrt (sqMag v1) * Real.sqrt (sqMag v2))

/-- `f64::MIN`, the initial value of `max_similarity`. -/
noncomputable def f64Min : ℝ := -(2 ^ 1024 - 2 ^ 971)

/-- One iteration of the best-match loop of `get_response`:
`if similarity > max_similarity { update best_match and max_similarity }`. -/
noncomputable def bestStep (iv : Vec) (acc : String × Flt) (p : String × Vec) :
    String × Flt :=
  let s := cosine_similarity iv p.2
  if Flt.gtR s acc.2 then (p.1, s) else acc

/-- The best-match loop of `get_response`, starting from
`best_match = String::new()`, `max_similarity = f64::MIN`. -/
noncomputable def bestOf (iv : Vec) (vecs : List (String × Vec)) :
    String × Flt :=
  vecs.foldl (bestStep iv) ("", .fin f64Min)

/-- Association-list lookup, modelling `HashMap::get`. -/
def alookup {β : Type} : List (String × β) → String → Option β
  | [], _ => none
  | (k, v) :: rest, w => if k = w then some v else alookup rest w

/-- The fixed no-relevant-question message. -/
def noMatchMsg : String :=
  "I'm sorry, I couldn't find a relevant question. Please try rephrasing your question."

/-- The closest-question fallback message, embedding the best match. -/
def closestMsg (best : String) : String :=
  "I'm sorry, I don't have specific information about that. The closest question I can answer is: '"
    ++ best ++ "'. Would you like me to answer that instead?"

/-- `get_response`. `none` models the panic of
`qa_data.get(&best_match).unwrap()` when the best match is not a catalog
key; every `some` is the returned response string. -/
noncomputable def get_response (qa_data : List (String × String))
    (tfidf_vectors : List (String × Vec)) (idf : Vec) (input : String) :
    Option String :=
  let iv := compute_input_vector input idf
  let res := bestOf iv tfidf_vectors
  if Flt.gtR res.2 (.fin (1 / 2)) then
    match alookup qa_data res.1 with
    | some a => some a
    | none => none
  else if res.1 = "" then some noMatchMsg
  else some (closestMsg res.1)

/-- JSON value, modelling `serde_json::Value`. -/
inductive Json where
  | null : Json
  | bool : Bool → Json
  | num : Int → Json
  | str : String → Json
  | arr : List Json → Json
  | obj : List (String × Json) → Json

/-- `serde_json` indexing `json[key]`: a missing key, or indexing a
non-object, yields `Null`. -/
def jIndex (j : Json) (k : String) : Json :=
  match j with
  | .obj fs =>
    match alookup fs k with
    | some v => v
    | none => .null
  | _ => .null

/-- `Value::as_array`. -/
def jAsArray : Json → Option (List Json)
  | .arr xs => some xs
  | _ => none

/-- `Value::as_str`. -/
def jAsStr : Json → Option String
  | .str s => some s
  | _ => none

/-- `HashMap::insert` on the catalog: replace the value if the key exists,
otherwise add the pair. -/
def qaInsert : List (String × String) → String → String → List (String × String)
  | [], k, v => [(k, v)]
  | (k0, v0) :: rest, k, v =>
    if k0 = k then (k0, v) :: rest else (k0, v0) :: qaInsert rest k v

/-- `initialize_qa_data`, with the I/O boundary made explicit: `none` models
`File::open` failing (missing file), `some (.error ())` a file whose contents
fail JSON parsing, and `some (.ok json)` a successfully parsed document.
After parsing, the Rust code uses `if let`/pattern matching: a missing or
non-array `"questions"` field and entries without string
`"question"`/`"answer"` fields are silently skipped, never errors. -/
def initialize_qa_data (file : Option (Except Unit Json)) :
    Except Unit (List (String × String)) :=
  match file with
  | none => .error ()
  | some (.error _) => .error ()
  | some (.ok json) =>
    .ok (match jAsArray (jIndex json "questions") with
      | some qs =>
        qs.foldl (fun m q =>
          match jAsStr (jIndex q "question"), jAsStr (jIndex q "answer") with
          | some ques, some ans => qaInsert m ques ans
          | _, _ => m) []
      | none => [])

/-- The catalog question of the spec's one-entry running example. -/
def exQ : String := "What is Thoughtful AI?"

/-- The stored answer of the spec's one-entry running example. -/
def exA : String := "Thoughtful AI builds automation for healthcare."

/-! ## Basic lemmas about the embedded operations -/

theorem vget_cons_self (k : String) (x : ℝ) (v : Vec) :
    vget ((k, x) :: v) k = x := by
  simp [vget]

theorem vget_cons_ne (k w : String) (x : ℝ) (v : Vec) (h : k ≠ w) :
    vget ((k, x) :: v) w = vget v w := by
  simp [vget, h]

theorem vget_eq_zero_of_not_mem (v : Vec) (w : String)
    (h : w ∉ keysOf v) : vget v w = 0 := by
  induction v with
  | nil => rfl
  | cons p rest ih =>
    obtain ⟨k, x⟩ := p
    simp only [keysOf, List.map_cons, List.mem_cons, not_or] at h
    rw [vget_cons_ne k w x rest (fun hk => h.1 hk.symm)]
    exact ih (by simpa [keysOf] using h.2)

theorem vget_of_mem (v : Vec) (w : String) (x : ℝ)
    (hv : NodupKeys v) (h : (w, x) ∈ v) : vget v w = x := by
  induction v with
  | nil => simp at h
  | cons p rest ih =>
    obtain ⟨k, y⟩ := p
    simp only [NodupKeys, keysOf, List.map_cons, List.nodup_cons] at hv
    rcases List.mem_cons.mp h with h1 | h2
    · obtain ⟨hk, hx⟩ := Prod.mk.injEq .. ▸ h1
      simp [vget, hk.symm, hx.symm]
    · have hkw : k ≠ w := by
        intro hkw
        exact hv.1 (hkw ▸ (List.mem_map.mpr ⟨(w, x), h2, rfl⟩))
      rw [vget_cons_ne k w y rest hkw]
      exact ih hv.2 h2

theorem alookup_of_mem {β : Type} (l : List (String × β)) (w : String) (b : β)
    (hl : NodupKeys l) (h : (w, b) ∈ l) : alookup l w = some b := by
  induction l with
  | nil => simp at h
  | cons p rest ih =>
    obtain ⟨k, y⟩ := p
    simp only [NodupKeys, keysOf, List.map_cons, List.nodup_cons] at hl
    rcases List.mem_cons.mp h with h1 | h2
    · obtain ⟨hk, hx⟩ := Prod.mk.injEq .. ▸ h1
      simp [alookup, hk.symm, hx.symm]
    · have hkw : k ≠ w := by
        intro hkw
        exact hl.1 (hkw ▸ (List.mem_map.mpr ⟨(w, b), h2, rfl⟩))
      simpa [alookup, hkw] using ih hl.2 h2

theorem alookup_isSome_of_mem_keys {β : Type} (l : List (String × β))
    (w : String) (h : w ∈ keysOf l) : (alookup l w).isSome := by
  induction l with
  | nil => simp [keysOf] at h
  | cons p rest ih =>
    obtain ⟨k, y⟩ := p
    by_cases hk : k = w
    · simp [alookup, hk]
    · simp only [keysOf, List.map_cons, List.mem_cons] at h
      rcases h with h | h

      · exact absurd h.symm hk
      · simpa [alookup, hk] using ih h

theorem sqMag_nil : sqMag [] = 0 := rfl

theorem sqMag_cons (p : String × ℝ) (v : Vec) :
    sqMag (p :: v) = p.2 * p.2 + sqMag v := by
  simp [sqMag]

theorem sqMag_nonneg (v : Vec) : 0 ≤ sqMag v := by
  induction v with
  | nil => simp [sqMag_nil]
  | cons p rest ih =>
    rw [sqMag_cons]
    exact add_nonneg (mul_self_nonneg p.2) ih

theorem sqMag_entries_zero (v : Vec) (h : sqMag v = 0) :
    ∀ p ∈ v, p.2 = 0 := by
  induction v with
  | nil => simp
  | cons q rest ih =>
    rw [sqMag_cons] at h
    have h1 : q.2 * q.2 = 0 ∧ sqMag rest = 0 :=
      (add_eq_zero_iff_of_nonneg (mul_self_nonneg q.2) (sqMag_nonneg rest)).mp h
    intro p hp
    rcases List.mem_cons.mp hp with hq | hr
    · exact hq ▸ mul_self_eq_zero.mp h1.1
    · exact ih h1.2 p hr

theorem sqMag_eq_zero_of_entries (v : Vec) (h : ∀ p ∈ v, p.2 = 0) :
    sqMag v = 0 := by
  unfold sqMag
  apply List.sum_eq_zero
  intro x hx
  obtain ⟨p, hp, rfl⟩ := List.mem_map.mp hx
  rw [h p hp, mul_zero]

theorem dotP_cons (p : String × ℝ) (v1 v2 : Vec) :
    dotP (p :: v1) v2 = p.2 * vget v2 p.1 + dotP v1 v2 := by
  simp [dotP]

theorem dotP_eq_zero_of_left_zero (v1 v2 : Vec) (h : ∀ p ∈ v1, p.2 = 0) :
    dotP v1 v2 = 0 := by
  unfold dotP
  apply List.sum_eq_zero
  intro x hx
  obtain ⟨p, hp, rfl⟩ := List.mem_map.mp hx
  rw [h p hp, zero_mul]

theorem dotP_self (v : Vec) (hv : NodupKeys v) : dotP v v = sqMag v := by
  induction v with
  | nil => rfl
  | cons p rest ih =>
    obtain ⟨k, x⟩ := p
    simp only [NodupKeys, keysOf, List.map_cons, List.nodup_cons] at hv
    rw [dotP_cons, sqMag_cons, vget_cons_self]
    congr 1
    have htail : dotP rest ((k, x) :: rest) = dotP rest rest := by
      unfold dotP
      congr 1
      apply List.map_congr_left
      intro q hq
      have hqk : k ≠ q.1 := by
        intro hk
        exact hv.1 (hk ▸ (List.mem_map.mpr ⟨q, hq, rfl⟩))
      rw [vget_cons_ne k q.1 x rest hqk]
    rw [htail]
    exact ih hv.2

/-! ## Lemmas about `bump`, `countOf` and the document-frequency table -/

theorem countOf_of_mem (m : List (String × Nat)) (w : String) (c : Nat)
    (hm : NodupKeys m) (h : (w, c) ∈ m) : countOf m w = c := by
  induction m with
  | nil => simp at h
  | cons p rest ih =>
    obtain ⟨k, y⟩ := p
    simp only [NodupKeys, keysOf, List.map_cons, List.nodup_cons] at hm
    rcases List.mem_cons.mp h with h1 | h2
    · obtain ⟨hk, hx⟩ := Prod.mk.injEq .. ▸ h1
      simp [countOf, hk.symm, hx.symm]
    · have hkw : k ≠ w := by
        intro hkw
        exact hm.1 (hkw ▸ (List.mem_map.mpr ⟨(w, c), h2, rfl⟩))
      simpa [countOf, hkw] using ih hm.2 h2

theorem mem_keys_bump (m : List (String × Nat)) (w w' : String) :
    w' ∈ keysOf (bump m w) ↔ w' ∈ keysOf m ∨ w' = w := by
  induction m with
  | nil => simp [bump, keysOf]
  | cons p rest ih =>
    obtain ⟨k, v⟩ := p
    by_cases hk : k = w
    · subst hk
      simp [bump, keysOf]
      tauto
    · simp only [bump, if_neg hk, keysOf, List.map_cons, List.mem_cons]
      rw [keysOf] at ih
      tauto

theorem nodupKeys_bump (m : List (String × Nat)) (w : String)
    (hm : NodupKeys m) : NodupKeys (bump m w) := by
  induction m with
  | nil => simp [bump, NodupKeys, keysOf]
  | cons p rest ih =>
    obtain ⟨k, v⟩ := p
    simp only [NodupKeys, keysOf, List.map_cons, List.nodup_cons] at hm
    by_cases hk : k = w
    · subst hk
      simpa [bump, NodupKeys, keysOf] using hm
    · have := ih hm.2
      simp only [bump, if_neg hk, NodupKeys, keysOf, List.map_cons,
        List.nodup_cons]
      refine ⟨fun hc => ?_, this⟩
      rcases (mem_keys_bump rest w k).mp (by simpa [keysOf] using hc) with
        h | h
      · exact hm.1 (by simpa [keysOf] using h)
      · exact hk h

theorem one_le_of_mem_bump (m : List (String × Nat)) (w : String)
    (hm : ∀ p ∈ m, 1 ≤ p.2) : ∀ p ∈ bump m w, 1 ≤ p.2 := by
  induction m with
  | nil =>
    intro p hp
    simp only [bump, List.mem_singleton] at hp
    simp [hp]
  | cons q rest ih =>
    obtain ⟨k, v⟩ := q
    intro p hp
    by_cases hk : k = w
    · have hb : bump ((k, v) :: rest) w = (k, v + 1) :: rest := by
        simp [bump, hk]
      rw [hb] at hp
      rcases List.mem_cons.mp hp with h | h
      · simp [h]
      · exact hm p (List.mem_cons_of_mem _ h)
    · simp only [bump, if_neg hk, List.mem_cons] at hp
      rcases hp with h | h
      · exact h ▸ hm (k, v) (List.mem_cons_self _ _)
      · exact ih (fun r hr => hm r (List.mem_cons_of_mem _ hr)) p h

theorem countOf_bump_self (m : List (String × Nat)) (w : String) :
    countOf (bump m w) w = countOf m w + 1 := by
  induction m with
  | nil => simp [bump, countOf]
  | cons p rest ih =>
    obtain ⟨k, v⟩ := p
    by_cases hk : k = w
    · simp [bump, countOf, hk]
    · simp [bump, countOf, hk, ih]

theorem countOf_bump_ne (m : List (String × Nat)) (w w' : String)
    (h : w' ≠ w) : countOf (bump m w) w' = countOf m w' := by
  have hwn : w ≠ w' := Ne.symm h
  induction m with
  | nil => simp [bump, countOf, hwn]
  | cons p rest ih =>
    obtain ⟨k, v⟩ := p
    by_cases hk : k = w
    · have hb : bump ((k, v) :: rest) w = (k, v + 1) :: rest := by
        simp [bump, hk]
      rw [hb, hk]
      simp [countOf, hwn]
    · simp [bump, countOf, hk, ih]

theorem countOf_foldl_bump_nodup (ws : List String) :
    ∀ (m : List (String × Nat)) (w : String), ws.Nodup →
      countOf (ws.foldl bump m) w =
        countOf m w + (if w ∈ ws then 1 else 0) := by
  induction ws with
  | nil => intro m w _; simp
  | cons a ws ih =>
    intro m w hnd
    rw [List.nodup_cons] at hnd
    rw [List.foldl_cons, ih (bump m a) w hnd.2]
    by_cases hw : w = a
    · subst hw
      rw [countOf_bump_self, if_neg hnd.1, if_pos (List.mem_cons_self _ _)]
    · rw [countOf_bump_ne m a w hw]
      simp [List.mem_cons, hw]

theorem mem_keys_foldl_bump (ws : List String) :
    ∀ (m : List (String × Nat)) (w : String),
      w ∈ keysOf (ws.foldl bump m) ↔ w ∈ keysOf m ∨ w ∈ ws := by
  induction ws with
  | nil => intro m w; simp
  | cons a ws ih =>
    intro m w
    rw [List.foldl_cons, ih (bump m a) w, mem_keys_bump]
    simp [List.mem_cons]
    tauto

theorem nodupKeys_foldl_bump (ws : List String) :
    ∀ (m : List (String × Nat)), NodupKeys m →
      NodupKeys (ws.foldl bump m) := by
  induction ws with
  | nil => intro m hm; exact hm
  | cons a ws ih =>
    intro m hm
    exact ih (bump m a) (nodupKeys_bump m a hm)

theorem one_le_of_mem_foldl_bump (ws : List String) :
    ∀ (m : List (String × Nat)), (∀ p ∈ m, 1 ≤ p.2) →
      ∀ p ∈ ws.foldl bump m, 1 ≤ p.2 := by
  induction ws with
  | nil => intro m hm; exact hm
  | cons a ws ih =>
    intro m hm
    exact ih (bump m a) (one_le_of_mem_bump m a hm)

/-- The document-frequency table has pairwise-distinct keys. -/
theorem nodupKeys_word_doc_count (qs : List String) :
    NodupKeys (word_doc_count qs) := by
  unfold word_doc_count
  suffices h : ∀ (qs : List String) (m : List (String × Nat)), NodupKeys m →
      NodupKeys (qs.foldl (fun m q => (tokenize q).dedup.foldl bump m) m) by
    exact h qs [] (by simp [NodupKeys, keysOf])
  intro qs
  induction qs with
  | nil => intro m hm; exact hm
  | cons q qs ih =>
    intro m hm
    exact ih _ (nodupKeys_foldl_bump _ _ hm)

/-- The count a term reaches in the document-frequency table is exactly
the number of catalog questions whose token list contains it. -/
theorem countOf_word_doc_count (qs : List String) (w : String) :
    countOf (word_doc_count qs) w =
      qs.countP (fun q => decide (w ∈ tokenize q)) := by
  unfold word_doc_count
  suffices h : ∀ (qs : List String) (m : List (String × Nat)),
      countOf (qs.foldl (fun m q => (tokenize q).dedup.foldl bump m) m) w =
        countOf m w + qs.countP (fun q => decide (w ∈ tokenize q)) by
    simpa [countOf] using h qs []
  intro qs
  induction qs with
  | nil => intro m; simp
  | cons q qs ih =>
    intro m
    rw [List.foldl_cons, ih, List.countP_cons,
      countOf_foldl_bump_nodup _ _ _ (List.nodup_dedup _)]
    simp [List.mem_dedup]
    by_cases hw : w ∈ tokenize q
    · simp [hw]
      ring
    · simp [hw]

/-- A term is in the document-frequency table exactly when some catalog
question contains it. -/
theorem mem_keys_word_doc_count (qs : List String) (w : String) :
    w ∈ keysOf (word_doc_count qs) ↔ ∃ q ∈ qs, w ∈ tokenize q := by
  unfold word_doc_count
  suffices h : ∀ (qs : List String) (m : List (String × Nat)),
      w ∈ keysOf (qs.foldl (fun m q => (tokenize q).dedup.foldl bump m) m) ↔
        w ∈ keysOf m ∨ ∃ q ∈ qs, w ∈ tokenize q by
    simpa [keysOf] using h qs []
  intro qs
  induction qs with
  | nil => intro m; simp
  | cons q qs ih =>
    intro m
    rw [List.foldl_cons, ih, mem_keys_foldl_bump]
    simp [List.mem_dedup]
    tauto

/-! ## Lemmas about `Flt` and `fdiv` -/

theorem Flt.gtR_fin_iff (x y : ℝ) : (Flt.fin x).gtR (Flt.fin y) ↔ y < x :=
  Iff.rfl

theorem Flt.not_nan_gtR (a : Flt) : ¬ Flt.nan.gtR a := by
  cases a <;> simp [Flt.gtR]

theorem Flt.not_gtR_nan (a : Flt) : ¬ a.gtR Flt.nan := by
  cases a <;> simp [Flt.gtR]

theorem Flt.gtR_asymm {a b : Flt} (h : a.gtR b) : ¬ b.gtR a := by
  cases a <;> cases b <;> simp [Flt.gtR] at h ⊢
  exact le_of_lt h

theorem fdiv_nan (x y : ℝ) (hy : y = 0) (hx : x = 0) : fdiv x y = .nan := by
  simp [fdiv, hx, hy]

theorem fdiv_fin (x y : ℝ) (hy : y ≠ 0) : fdiv x y = .fin (x / y) := by
  simp [fdiv, hy]

theorem fdiv_self_eq_one (x : ℝ) (hx : x ≠ 0) : fdiv x x = .fin 1 := by
  rw [fdiv_fin x x hx, div_self hx]

theorem f64Min_neg : f64Min < 0 := by
  unfold f64Min
  norm_num

theorem f64Min_lt_half : f64Min < 1 / 2 :=
  lt_trans f64Min_neg (by norm_num)

theorem f64Min_lt_one : f64Min < 1 :=
  lt_trans f64Min_neg (by norm_num)

/-! ## Lemmas about `cosine_similarity` -/

/-- A vector compared with itself scores exactly `1.0`, provided its
magnitude is nonzero. -/
theorem cosine_self (v : Vec) (hv : NodupKeys v) (hS : sqMag v ≠ 0) :
    cosine_similarity v v = .fin 1 := by
  unfold cosine_similarity
  rw [dotP_self v hv, Real.mul_self_sqrt (sqMag_nonneg v)]
  exact fdiv_self_eq_one _ hS

/-- A zero-magnitude left vector forces the IEEE division `0.0 / 0.0`:
the similarity is NaN whatever the right vector is. -/
theorem cosine_nan_of_left_zero (v1 v2 : Vec) (h : sqMag v1 = 0) :
    cosine_similarity v1 v2 = .nan := by
  unfold cosine_similarity
  apply fdiv_nan
  · rw [h, Real.sqrt_zero, zero_mul]
  · exact dotP_eq_zero_of_left_zero v1 v2 (sqMag_entries_zero v1 h)

/-! ## Lemmas about the best-match loop -/

theorem bestOf_nil (iv : Vec) : bestOf iv [] = ("", .fin f64Min) := rfl

/-- If every similarity the loop computes is NaN, no candidate ever wins the
comparison and the accumulator never changes. -/
theorem foldl_bestStep_all_nan (iv : Vec) (vecs : List (String × Vec)) :
    ∀ acc : String × Flt, (∀ p ∈ vecs, cosine_similarity iv p.2 = .nan) →
      vecs.foldl (bestStep iv) acc = acc := by
  induction vecs with
  | nil => intro acc _; rfl
  | cons p rest ih =>
    intro acc h
    rw [List.foldl_cons]
    have hstep : bestStep iv acc p = acc := by
      unfold bestStep
      rw [h p (List.mem_cons_self _ _)]
      rw [if_neg (Flt.not_nan_gtR acc.2)]
    rw [hstep]
    exact ih acc (fun q hq => h q (List.mem_cons_of_mem _ hq))

theorem bestOf_all_nan (iv : Vec) (vecs : List (String × Vec))
    (h : ∀ p ∈ vecs, cosine_similarity iv p.2 = .nan) :
    bestOf iv vecs = ("", .fin f64Min) :=
  foldl_bestStep_all_nan iv vecs _ h

/-- The loop result is either the untouched initial accumulator or names one
of the iterated questions. -/
theorem foldl_bestStep_mem (iv : Vec) (vecs : List (String × Vec)) :
    ∀ acc : String × Flt,
      vecs.foldl (bestStep iv) acc = acc ∨
        (vecs.foldl (bestStep iv) acc).1 ∈ keysOf vecs := by
  induction vecs with
  | nil => intro acc; exact Or.inl rfl
  | cons p rest ih =>
    intro acc
    rw [List.foldl_cons]
    have hkc : keysOf (p :: rest) = p.1 :: keysOf rest := rfl
    by_cases hc : Flt.gtR (cosine_similarity iv p.2) acc.2
    · have hstep : bestStep iv acc p = (p.1, cosine_similarity iv p.2) := by
        unfold bestStep
        rw [if_pos hc]
      rw [hstep]
      rcases ih (p.1, cosine_similarity iv p.2) with h | h
      · refine Or.inr ?_
        rw [h, hkc]
        exact List.mem_cons_self _ _
      · refine Or.inr ?_
        rw [hkc]
        exact List.mem_cons_of_mem _ h
    · have hstep : bestStep iv acc p = acc := by
        unfold bestStep
        rw [if_neg hc]
      rw [hstep]
      rcases ih acc with h | h
      · exact Or.inl h
      · refine Or.inr ?_
        rw [hkc]
        exact List.mem_cons_of_mem _ h

/-- Once the accumulator holds similarity exactly `1.0`, entries that score
strictly below `1.0` or NaN (and whose vector is the accumulator's own when
they carry its key) never displace it. -/
theorem foldl_bestStep_keep_top (iv : Vec) (q : String) (vq : Vec)
    (hsim : cosine_similarity iv vq = .fin 1) :
    ∀ vecs : List (String × Vec),
      (∀ p ∈ vecs, (p.1 = q → p.2 = vq) ∧
        (p.1 ≠ q → Flt.gtR (.fin 1) (cosine_similarity iv p.2) ∨
          cosine_similarity iv p.2 = .nan)) →
      vecs.foldl (bestStep iv) (q, .fin 1) = (q, .fin 1) := by
  intro vecs
  induction vecs with
  | nil => intro _; rfl
  | cons p rest ih =>
    intro h
    have hp := h p (List.mem_cons_self _ _)
    rw [List.foldl_cons]
    have hstep : bestStep iv (q, .fin 1) p = (q, .fin 1) := by
      unfold bestStep
      by_cases hk : p.1 = q
      · rw [hp.1 hk, hsim]
        rw [if_neg (by simp [Flt.gtR])]
      · rcases hp.2 hk with hlt | hnan
        · rw [if_neg (Flt.gtR_asymm hlt)]
        · rw [hnan, if_neg (Flt.not_nan_gtR _)]
    rw [hstep]
    exact ih (fun r hr => h r (List.mem_cons_of_mem _ hr))

/-- If some entry `(q, vq)` scores exactly `1.0`, every entry with key `q`
carries the vector `vq`, and every other entry scores strictly below `1.0`
or NaN, then the loop selects `q` with similarity `1.0` — regardless of where
`q` sits in the iteration order. -/
theorem bestOf_unique_max (iv : Vec) (vecs : List (String × Vec))
    (q : String) (vq : Vec)
    (hmem : (q, vq) ∈ vecs)
    (hsim : cosine_similarity iv vq = .fin 1)
    (hkey : ∀ p ∈ vecs, p.1 = q → p.2 = vq)
    (hoth : ∀ p ∈ vecs, p.1 ≠ q →
      Flt.gtR (.fin 1) (cosine_similarity iv p.2) ∨
        cosine_similarity iv p.2 = .nan) :
    bestOf iv vecs = (q, .fin 1) := by
  unfold bestOf
  suffices h : ∀ (vecs : List (String × Vec)) (acc : String × Flt),
      Flt.gtR (.fin 1) acc.2 → (q, vq) ∈ vecs →
      (∀ p ∈ vecs, p.1 = q → p.2 = vq) →
      (∀ p ∈ vecs, p.1 ≠ q →
        Flt.gtR (.fin 1) (cosine_similarity iv p.2) ∨
          cosine_similarity iv p.2 = .nan) →
      vecs.foldl (bestStep iv) acc = (q, .fin 1) by
    exact h vecs ("", .fin f64Min) ((Flt.gtR_fin_iff 1 f64Min).mpr
      f64Min_lt_one) hmem hkey hoth
  intro vecs
  induction vecs with
  | nil => intro acc _ habs _ _; simp at habs
  | cons p rest ih =>
    intro acc hacc hm hk ho
    rw [List.foldl_cons]
    by_cases hpq : p.1 = q
    · have hpv : p.2 = vq := hk p (List.mem_cons_self _ _) hpq
      have hstep : bestStep iv acc p = (q, .fin 1) := by
        unfold bestStep
        rw [hpv, hsim, if_pos hacc, hpq]
      rw [hstep]
      exact foldl_bestStep_keep_top iv q vq hsim rest
        (fun r hr => ⟨hk r (List.mem_cons_of_mem _ hr),
          ho r (List.mem_cons_of_mem _ hr)⟩)
    · have hmr : (q, vq) ∈ rest := by
        rcases List.mem_cons.mp hm with h1 | h2
        · exact absurd (congrArg Prod.fst h1.symm) hpq
        · exact h2
      have hrec := ih
      rcases ho p (List.mem_cons_self _ _) hpq with hlt | hnan
      · by_cases hc : Flt.gtR (cosine_similarity iv p.2) acc.2
        · have hstep : bestStep iv acc p = (p.1, cosine_similarity iv p.2) := by
            unfold bestStep
            rw [if_pos hc]
          rw [hstep]
          exact hrec (p.1, cosine_similarity iv p.2) hlt hmr
            (fun r hr => hk r (List.mem_cons_of_mem _ hr))
            (fun r hr => ho r (List.mem_cons_of_mem _ hr))
        · have hstep : bestStep iv acc p = acc := by
            unfold bestStep
            rw [if_neg hc]
          rw [hstep]
          exact hrec acc hacc hmr
            (fun r hr => hk r (List.mem_cons_of_mem _ hr))
            (fun r hr => ho r (List.mem_cons_of_mem _ hr))
      · have hstep : bestStep iv acc p = acc := by
          unfold bestStep
          rw [hnan, if_neg (Flt.not_nan_gtR _)]
        rw [hstep]
        exact hrec acc hacc hmr
          (fun r hr => hk r (List.mem_cons_of_mem _ hr))
          (fun r hr => ho r (List.mem_cons_of_mem _ hr))

/-! ## Structural lemmas about the index and the response function -/

theorem get_response_of_bestOf (qa : List (String × String))
    (vecs : List (String × Vec)) (idf : Vec) (input : String) (b : String)
    (m : Flt) (h : bestOf (compute_input_vector input idf) vecs = (b, m)) :
    get_response qa vecs idf input =
      if Flt.gtR m (.fin (1 / 2)) then
        (match alookup qa b with
          | some a => some a
          | none => none)
      else if b = "" then some noMatchMsg else some (closestMsg b) := by
  simp only [get_response]
  rw [h]

theorem not_gtR_f64Min_half : ¬ Flt.gtR (.fin f64Min) (.fin (1 / 2)) := by
  rw [Flt.gtR_fin_iff]
  exact not_lt.mpr (le_of_lt f64Min_lt_half)

theorem keysOf_compute_tfidf (qa : List (String × String)) :
    keysOf (compute_tfidf qa).1 = keysOf qa := by
  simp [compute_tfidf, keysOf, List.map_map]

theorem mem_keys_tf_counts (ws : List String) (w : String) :
    w ∈ keysOf (tf_counts ws) ↔ w ∈ ws := by
  unfold tf_counts
  rw [mem_keys_foldl_bump]
  simp [keysOf]

theorem nodupKeys_tf_counts (ws : List String) : NodupKeys (tf_counts ws) :=
  nodupKeys_foldl_bump ws [] (by simp [NodupKeys, keysOf])

theorem keysOf_tfidf_from_tokens (idf : Vec) (ws : List String) :
    keysOf (tfidf_from_tokens idf ws) = keysOf (tf_counts ws) := by
  simp [tfidf_from_tokens, keysOf, List.map_map]

theorem nodupKeys_tfidf_from_tokens (idf : Vec) (ws : List String) :
    NodupKeys (tfidf_from_tokens idf ws) := by
  unfold NodupKeys
  rw [keysOf_tfidf_from_tokens]
  exact nodupKeys_tf_counts ws

theorem one_le_word_doc_count (qs : List String) :
    ∀ p ∈ word_doc_count qs, 1 ≤ p.2 := by
  unfold word_doc_count
  suffices h : ∀ (qs : List String) (m : List (String × Nat)),
      (∀ p ∈ m, 1 ≤ p.2) →
      ∀ p ∈ qs.foldl (fun m q => (tokenize q).dedup.foldl bump m) m,
        1 ≤ p.2 by
    exact h qs [] (by simp)
  intro qs
  induction qs with
  | nil => intro m hm; exact hm
  | cons q qs ih =>
    intro m hm
    exact ih _ (one_le_of_mem_foldl_bump _ _ hm)

/-- Document frequencies lie between 1 and the number of questions. -/
theorem word_doc_count_bounds (qs : List String) (w : String) (c : Nat)
    (h : (w, c) ∈ word_doc_count qs) : 1 ≤ c ∧ c ≤ qs.length := by
  refine ⟨one_le_word_doc_count qs (w, c) h, ?_⟩
  have hc : countOf (word_doc_count qs) w = c :=
    countOf_of_mem _ _ _ (nodupKeys_word_doc_count qs) h
  rw [← hc, countOf_word_doc_count]
  exact List.countP_le_length _

theorem keysOf_compute_idf (qs : List String) :
    keysOf (compute_idf qs) = keysOf (word_doc_count qs) := by
  simp [compute_idf, keysOf, List.map_map]

theorem nodupKeys_compute_idf (qs : List String) :
    NodupKeys (compute_idf qs) := by
  unfold NodupKeys
  rw [keysOf_compute_idf]
  exact nodupKeys_word_doc_count qs

/-- Shared core of the NaN analysis: a zero-magnitude input vector makes
every similarity NaN, the best-match loop never fires, and the response is
the fixed no-relevant-question message. -/
theorem no_match_of_zero_mag (qa : List (String × String))
    (vecs : List (String × Vec)) (idf : Vec) (input : String)
    (h : sqMag (compute_input_vector input idf) = 0) :
    (∀ p ∈ vecs,
      cosine_similarity (compute_input_vector input idf) p.2 = .nan) ∧
    get_response qa vecs idf input = some noMatchMsg := by
  have hnan : ∀ p ∈ vecs,
      cosine_similarity (compute_input_vector input idf) p.2 = .nan :=
    fun p _ => cosine_nan_of_left_zero _ p.2 h
  refine ⟨hnan, ?_⟩
  rw [get_response_of_bestOf qa vecs idf input "" (.fin f64Min)
    (bestOf_all_nan _ _ hnan)]
  rw [if_neg not_gtR_f64Min_half, if_pos rfl]

/-- Every token of the input missing from the IDF table forces every weight
of the input vector to zero. -/
theorem zero_mag_of_unseen_tokens (idf : Vec) (input : String)
    (h : ∀ w ∈ tokenize input, w ∉ keysOf idf) :
    sqMag (compute_input_vector input idf) = 0 := by
  apply sqMag_eq_zero_of_entries
  intro p hp
  obtain ⟨r, hr, rfl⟩ := List.mem_map.mp hp
  have hrw : r.1 ∈ tokenize input := by
    rw [← mem_keys_tf_counts]
    exact List.mem_map.mpr ⟨r, hr, rfl⟩
  rw [vget_eq_zero_of_not_mem idf r.1 (h r.1 hrw), mul_zero]

/-- In a one-question catalog every document frequency is 1, so every IDF
value is `ln(1/1) = 0`. -/
theorem vget_idf_single (q0 a0 w : String) :
    vget (compute_tfidf [(q0, a0)]).2 w = 0 := by
  show vget (compute_idf [q0]) w = 0
  by_cases hw : w ∈ keysOf (compute_idf [q0])
  · obtain ⟨p, hp, hfst⟩ := List.mem_map.mp hw
    obtain ⟨r, hr, rfl⟩ := List.mem_map.mp hp
    obtain ⟨h1, h2⟩ := word_doc_count_bounds [q0] r.1 r.2 hr
    have hc : r.2 = 1 := le_antisymm (by simpa using h2) h1
    have hval : Real.log ((([q0] : List String).length : ℝ) / (r.2 : ℝ)) = 0 := by
      rw [hc]
      norm_num
    have := vget_of_mem (compute_idf [q0]) r.1
      (Real.log ((([q0] : List String).length : ℝ) / (r.2 : ℝ)))
      (nodupKeys_compute_idf [q0])
      (List.mem_map.mpr ⟨r, hr, rfl⟩)
    rw [show w = r.1 from hfst.symm, this, hval]
  · exact vget_eq_zero_of_not_mem _ _ hw

/-- In a one-question catalog the input vector always has zero magnitude. -/
theorem single_catalog_zero_mag (q0 a0 input : String) :
    sqMag (compute_input_vector input (compute_tfidf [(q0, a0)]).2) = 0 := by
  apply sqMag_eq_zero_of_entries
  intro p hp
  obtain ⟨r, hr, rfl⟩ := List.mem_map.mp hp
  rw [vget_idf_single q0 a0 r.1, mul_zero]

/-- With unique keys, the dot product is the sum over the key set of `v1`. -/
theorem dotP_eq_sum (v1 v2 : Vec) (h1 : NodupKeys v1) :
    dotP v1 v2 = ∑ w ∈ (keysOf v1).toFinset, vget v1 w * vget v2 w := by
  induction v1 with
  | nil => simp [dotP, keysOf]
  | cons p rest ih =>
    obtain ⟨k, x⟩ := p
    simp only [NodupKeys, keysOf, List.map_cons, List.nodup_cons] at h1
    have hk : k ∉ (keysOf rest).toFinset := by
      rw [List.mem_toFinset]
      simpa [keysOf] using h1.1
    rw [dotP_cons, show keysOf ((k, x) :: rest) = k :: keysOf rest from rfl,
      List.toFinset_cons, Finset.sum_insert hk, vget_cons_self]
    congr 1
    rw [ih h1.2]
    refine Finset.sum_congr rfl (fun w hw => ?_)
    have hwk : k ≠ w := by
      intro hkw
      exact absurd (hkw ▸ List.mem_toFinset.mp hw) (by simpa [keysOf] using h1.1)
    rw [vget_cons_ne k w x rest hwk]

/-- The dot product extends to the union of the two key sets: keys missing
from `v1` contribute zero. -/
theorem dotP_eq_sum_union (v1 v2 : Vec) (h1 : NodupKeys v1) :
    dotP v1 v2 =
      ∑ w ∈ (keysOf v1).toFinset ∪ (keysOf v2).toFinset,
        vget v1 w * vget v2 w := by
  rw [dotP_eq_sum v1 v2 h1]
  refine Finset.sum_subset Finset.subset_union_left (fun w _ hw => ?_)
  rw [vget_eq_zero_of_not_mem v1 w (by simpa using hw), zero_mul]

/-! ## Claim theorems -/

/-- C4: for the empty catalog (hence empty vector set and empty IDF table),
`get_response` returns the fixed no-relevant-question message for every
input string. -/
theorem empty_catalog_no_match (input : String) :
    get_response [] (compute_tfidf []).1 (compute_tfidf []).2 input =
      some noMatchMsg := by
  have hb : bestOf (compute_input_vector input (compute_tfidf []).2)
      (compute_tfidf []).1 = ("", .fin f64Min) := rfl
  rw [get_response_of_bestOf _ _ _ _ _ _ hb, if_neg not_gtR_f64Min_half,
    if_pos rfl]

/-- C5: for every non-empty catalog, `compute_tfidf` produces exactly one
TF-IDF vector per catalog question (its key list is the catalog's key list),
and the IDF table's key set is exactly the catalog vocabulary — the union of
all lowercased whitespace-split tokens over all questions. -/
theorem build_index_keys (qa : List (String × String)) (_hne : qa ≠ []) :
    keysOf (compute_tfidf qa).1 = keysOf qa ∧
    (∀ w, w ∈ keysOf (compute_tfidf qa).2 ↔ ∃ p ∈ qa, w ∈ tokenize p.1) := by
  refine ⟨keysOf_compute_tfidf qa, fun w => ?_⟩
  have h3 : keysOf (compute_tfidf qa).2 =
      keysOf (word_doc_count (qa.map Prod.fst)) :=
    keysOf_compute_idf (qa.map Prod.fst)
  rw [h3, mem_keys_word_doc_count]
  constructor
  · rintro ⟨q, hq, hw⟩
    obtain ⟨p, hp, rfl⟩ := List.mem_map.mp hq
    exact ⟨p, hp, hw⟩
  · rintro ⟨p, hp, hw⟩
    exact ⟨p.1, List.mem_map.mpr ⟨p, hp, rfl⟩, hw⟩

/-- Witness for C5 on the catalog `[("a b", "x")]`. -/
theorem build_index_keys_witness :
    keysOf (compute_tfidf [("a b", "x")]).1 = keysOf [("a b", "x")] ∧
    ("a" ∈ keysOf (compute_tfidf [("a b", "x")]).2 ↔
      ∃ p ∈ [("a b", "x")], "a" ∈ tokenize p.1) :=
  ⟨(build_index_keys [("a b", "x")] (by decide)).1,
    (build_index_keys [("a b", "x")] (by decide)).2 "a"⟩

/-- C6: for a non-empty catalog of `N` questions, every document-frequency
entry `(w, c)` satisfies `1 ≤ c ≤ N`, the IDF table maps `w` to
`ln(N / c)`, and that value is never negative. -/
theorem df_bounds_idf_nonneg (qa : List (String × String)) (w : String)
    (c : Nat) (_hne : qa ≠ [])
    (hmem : (w, c) ∈ word_doc_count (qa.map Prod.fst)) :
    1 ≤ c ∧ c ≤ qa.length ∧
    alookup (compute_tfidf qa).2 w =
      some (Real.log ((qa.length : ℝ) / (c : ℝ))) ∧
    0 ≤ Real.log ((qa.length : ℝ) / (c : ℝ)) := by
  obtain ⟨h1, h2⟩ := word_doc_count_bounds (qa.map Prod.fst) w c hmem
  rw [List.length_map] at h2
  have hidf : (w, Real.log (((qa.map Prod.fst).length : ℝ) / (c : ℝ))) ∈
      compute_idf (qa.map Prod.fst) :=
    List.mem_map.mpr ⟨(w, c), hmem, rfl⟩
  have hlook : alookup (compute_tfidf qa).2 w =
      some (Real.log (((qa.map Prod.fst).length : ℝ) / (c : ℝ))) :=
    alookup_of_mem _ _ _ (nodupKeys_compute_idf _) hidf
  rw [List.length_map] at hlook
  refine ⟨h1, h2, hlook, ?_⟩
  apply Real.log_nonneg
  have hc0 : (0 : ℝ) < (c : ℝ) := by exact_mod_cast h1
  rw [one_le_div hc0]
  exact_mod_cast h2

/-- Witness for C6 on the catalog `[("a", "x")]` with term `"a"`, df 1. -/
theorem df_bounds_idf_nonneg_witness :
    1 ≤ 1 ∧ 1 ≤ [("a", "x")].length ∧
    alookup (compute_tfidf [("a", "x")]).2 "a" =
      some (Real.log (([("a", "x")].length : ℝ) / ((1 : Nat) : ℝ))) ∧
    0 ≤ Real.log (([("a", "x")].length : ℝ) / ((1 : Nat) : ℝ)) :=
  df_bounds_idf_nonneg [("a", "x")] "a" 1 (by decide) (by decide)

/-- C7: cosine similarity is symmetric, although the dot-product loop only
iterates the terms of its first argument: the skipped terms contribute zero
either way, and both magnitudes are computed from their own vector. -/
theorem cosine_similarity_symm (v1 v2 : Vec) (h1 : NodupKeys v1)
    (h2 : NodupKeys v2) :
    cosine_similarity v1 v2 = cosine_similarity v2 v1 := by
  have hdot : dotP v1 v2 = dotP v2 v1 := by
    rw [dotP_eq_sum_union v1 v2 h1, dotP_eq_sum_union v2 v1 h2,
      Finset.union_comm]
    exact Finset.sum_congr rfl (fun w _ => mul_comm _ _)
  unfold cosine_similarity
  rw [hdot, mul_comm]

/-- Witness for C7 on two concrete singleton vectors. -/
theorem cosine_similarity_symm_witness :
    cosine_similarity [("a", (1 : ℝ))] [("b", (2 : ℝ))] =
      cosine_similarity [("b", (2 : ℝ))] [("a", (1 : ℝ))] :=
  cosine_similarity_symm [("a", (1 : ℝ))] [("b", (2 : ℝ))]
    (by decide) (by decide)

/-- C9: per-query processing is total: with the vector set and IDF table
built by `compute_tfidf` from the same catalog, `get_response` always
returns a response string — the `unwrap` of the answer lookup cannot fail,
because any selected best match is a catalog key. -/
theorem per_query_total (qa : List (String × String)) (input : String) :
    (get_response qa (compute_tfidf qa).1 (compute_tfidf qa).2
      input).isSome := by
  rcases hr : bestOf (compute_input_vector input (compute_tfidf qa).2)
      (compute_tfidf qa).1 with ⟨b, m⟩
  rw [get_response_of_bestOf _ _ _ _ _ _ hr]
  by_cases hgt : Flt.gtR m (.fin (1 / 2))
  · rw [if_pos hgt]
    have hmem := foldl_bestStep_mem
      (compute_input_vector input (compute_tfidf qa).2)
      (compute_tfidf qa).1 ("", .fin f64Min)
    rw [show (compute_tfidf qa).1.foldl
        (bestStep (compute_input_vector input (compute_tfidf qa).2))
        ("", .fin f64Min) =
      bestOf (compute_input_vector input (compute_tfidf qa).2)
        (compute_tfidf qa).1 from rfl, hr] at hmem
    rcases hmem with he | hk
    · have hm : m = .fin f64Min := congrArg Prod.snd he
      rw [hm] at hgt
      exact absurd hgt not_gtR_f64Min_half
    · rw [keysOf_compute_tfidf] at hk
      obtain ⟨a, ha⟩ := Option.isSome_iff_exists.mp
        (alookup_isSome_of_mem_keys qa b hk)
      rw [ha]
      rfl
  · rw [if_neg hgt]
    by_cases hb : b = ""
    · rw [if_pos hb]
      rfl
    · rw [if_neg hb]
      rfl

/-- C10: whenever the query's TF-IDF vector has zero magnitude (empty or
whitespace-only query, or every token unseen or of zero IDF), every cosine
similarity `get_response` computes is NaN, no candidate beats the initial
maximum, the best match stays empty, and the fixed no-relevant-question
message is returned — never the closest-question fallback, never a stored
answer. -/
theorem zero_mag_query_no_match (qa : List (String × String))
    (vecs : List (String × Vec)) (idf : Vec) (input : String)
    (h : sqMag (compute_input_vector input idf) = 0) :
    (∀ p ∈ vecs,
      cosine_similarity (compute_input_vector input idf) p.2 = .nan) ∧
    get_response qa vecs idf input = some noMatchMsg :=
  no_match_of_zero_mag qa vecs idf input h

/-- Witness for C10: the empty query against a one-vector set. -/
theorem zero_mag_query_no_match_witness :
    (∀ p ∈ [("q", [("a", (1 : ℝ))])],
      cosine_similarity (compute_input_vector "" []) p.2 = .nan) ∧
    get_response [("q", "ans")] [("q", [("a", (1 : ℝ))])] [] "" =
      some noMatchMsg :=
  zero_mag_query_no_match [("q", "ans")] [("q", [("a", (1 : ℝ))])] [] "" rfl

/-- C3: the answer threshold is strict: `get_response` enters the
direct-answer branch only when the best similarity is strictly greater than
0.5, so a best similarity of exactly 0.5 (with a non-empty best match) takes
the closest-question fallback branch, not the direct-answer branch. -/
theorem threshold_exactly_half_falls_back (qa : List (String × String))
    (vecs : List (String × Vec)) (idf : Vec) (input : String) (b : String)
    (h : bestOf (compute_input_vector input idf) vecs = (b, .fin (1 / 2)))
    (hb : b ≠ "") :
    get_response qa vecs idf input = some (closestMsg b) := by
  rw [get_response_of_bestOf qa vecs idf input b (.fin (1 / 2)) h]
  rw [if_neg (by rw [Flt.gtR_fin_iff]; exact lt_irrefl _), if_neg hb]

/-- Witness for C3: a crafted query whose best similarity is exactly 0.5
(`dot = 1`, `‖v1‖ = 1`, `‖v2‖ = 2`), answered with the fallback. -/
theorem threshold_exactly_half_falls_back_witness :
    get_response [("q", "ans")]
      [("q", [("x", (1 : ℝ)), ("y", 1), ("z", 1), ("w", 1)])]
      [("x", (1 : ℝ))] "x" = some (closestMsg "q") := by
  have htok : tokenize "x" = ["x"] := rfl
  have hiv : compute_input_vector "x" [("x", (1 : ℝ))] = [("x", (1 : ℝ))] := by
    unfold compute_input_vector tfidf_from_tokens
    rw [htok, show tf_counts ["x"] = [("x", 1)] from rfl]
    norm_num [vget]
  have hdot : dotP [("x", (1 : ℝ))]
      [("x", (1 : ℝ)), ("y", 1), ("z", 1), ("w", 1)] = 1 := by
    norm_num [dotP, vget]
  have hsq1 : sqMag [("x", (1 : ℝ))] = 1 := by
    norm_num [sqMag]
  have hsq4 : sqMag [("x", (1 : ℝ)), ("y", 1), ("z", 1), ("w", 1)] = 4 := by
    norm_num [sqMag]
  have hs4 : Real.sqrt 4 = 2 := by
    rw [show (4 : ℝ) = 2 ^ 2 by norm_num,
      Real.sqrt_sq (by norm_num : (0 : ℝ) ≤ 2)]
  have hcos : cosine_similarity [("x", (1 : ℝ))]
      [("x", (1 : ℝ)), ("y", 1), ("z", 1), ("w", 1)] = .fin (1 / 2) := by
    unfold cosine_similarity
    rw [hdot, hsq1, hsq4, Real.sqrt_one, hs4, fdiv_fin _ _ (by norm_num)]
    norm_num
  have hbo : bestOf [("x", (1 : ℝ))]
      [("q", [("x", (1 : ℝ)), ("y", 1), ("z", 1), ("w", 1)])] =
      ("q", .fin (1 / 2)) := by
    simp only [bestOf, bestStep, List.foldl_cons, List.foldl_nil]
    rw [hcos, if_pos ((Flt.gtR_fin_iff _ _).mpr f64Min_lt_half)]
  exact threshold_exactly_half_falls_back [("q", "ans")]
    [("q", [("x", (1 : ℝ)), ("y", 1), ("z", 1), ("w", 1)])]
    [("x", (1 : ℝ))] "x" "q" (by rw [hiv]; exact hbo) (by decide)

/-- C2 counterexample: against the one-entry example catalog, the query
`"banana"` (token absent from the vocabulary) yields similarity NaN — not
0 — because the input vector has zero magnitude (`0.0 / 0.0`), and
`get_response` returns the fixed no-relevant-question message, not the
closest-question fallback naming the catalog question. -/
theorem banana_nan_counterexample :
    cosine_similarity
      (compute_input_vector "banana" (compute_tfidf [(exQ, exA)]).2)
      (tfidf_from_tokens (compute_tfidf [(exQ, exA)]).2 (tokenize exQ)) =
      .nan ∧
    get_response [(exQ, exA)] (compute_tfidf [(exQ, exA)]).1
      (compute_tfidf [(exQ, exA)]).2 "banana" = some noMatchMsg ∧
    noMatchMsg ≠ closestMsg exQ := by
  have hz : sqMag (compute_input_vector "banana"
      (compute_tfidf [(exQ, exA)]).2) = 0 :=
    single_catalog_zero_mag exQ exA "banana"
  exact ⟨cosine_nan_of_left_zero _ _ hz,
    (no_match_of_zero_mag _ _ _ _ hz).2, by decide⟩

/-- C2 amended: for any catalog and vector set, a query all of whose tokens
are absent from the IDF table gets input weights `tf · 0 = 0`, so the input
vector has zero magnitude and each computed similarity is NaN (not 0); the
NaN comparisons all fail, and `get_response` returns the fixed
no-relevant-question message, not the closest-question fallback. -/
theorem unseen_query_nan_no_match (qa : List (String × String))
    (vecs : List (String × Vec)) (idf : Vec) (input : String)
    (h : ∀ w ∈ tokenize input, w ∉ keysOf idf) :
    (∀ p ∈ vecs,
      cosine_similarity (compute_input_vector input idf) p.2 = .nan) ∧
    get_response qa vecs idf input = some noMatchMsg :=
  no_match_of_zero_mag qa vecs idf input
    (zero_mag_of_unseen_tokens idf input h)

/-- Witness for the amended C2: the `"banana"` query against the one-entry
example catalog. -/
theorem unseen_query_nan_no_match_witness :
    (∀ p ∈ (compute_tfidf [(exQ, exA)]).1,
      cosine_similarity (compute_input_vector "banana"
        (compute_tfidf [(exQ, exA)]).2) p.2 = .nan) ∧
    get_response [(exQ, exA)] (compute_tfidf [(exQ, exA)]).1
      (compute_tfidf [(exQ, exA)]).2 "banana" = some noMatchMsg := by
  refine unseen_query_nan_no_match [(exQ, exA)] (compute_tfidf [(exQ, exA)]).1
    (compute_tfidf [(exQ, exA)]).2 "banana" ?_
  intro w hw
  rw [show tokenize "banana" = ["banana"] from rfl, List.mem_singleton] at hw
  subst hw
  rw [show keysOf (compute_tfidf [(exQ, exA)]).2 =
    keysOf (word_doc_count [exQ]) from keysOf_compute_idf [exQ]]
  decide

/-- C1 counterexample: in a one-entry catalog every IDF is `ln(1/1) = 0`,
so the question's TF-IDF vector is all-zero and a query that tokenizes
identically to it scores NaN (`0.0 / 0.0`), not 1.0: `get_response` returns
the fixed no-relevant-question message, not the stored answer. The second
conjunct is the spec's own example pair (whose tokenizations even differ:
`"ai"` vs `"ai?"`), which likewise yields the no-match message instead of
the stored answer. -/
theorem identical_query_counterexample :
    get_response [("what is thoughtful ai", exA)]
      (compute_tfidf [("what is thoughtful ai", exA)]).1
      (compute_tfidf [("what is thoughtful ai", exA)]).2
      "what is thoughtful ai" = some noMatchMsg ∧
    get_response [(exQ, exA)] (compute_tfidf [(exQ, exA)]).1
      (compute_tfidf [(exQ, exA)]).2 "what is thoughtful ai" =
      some noMatchMsg ∧
    noMatchMsg ≠ exA :=
  ⟨(no_match_of_zero_mag _ _ _ _
      (single_catalog_zero_mag "what is thoughtful ai" exA
        "what is thoughtful ai")).2,
    (no_match_of_zero_mag _ _ _ _
      (single_catalog_zero_mag exQ exA "what is thoughtful ai")).2,
    by decide⟩

/-- C1 amended: if the query tokenizes identically to catalog question `q`
(with `(q, a)` in the catalog, whose keys are unique), the input vector is
`q`'s stored vector; provided that vector has nonzero magnitude the cosine
similarity is exactly 1.0, and provided every other question scores
strictly below 1.0 (or NaN), `get_response` selects `q` and returns its
stored answer `a` verbatim. Without the nonzero-magnitude proviso the claim
fails — in a one-entry catalog all IDFs are `ln 1 = 0` (see the
counterexample). -/
theorem identical_query_returns_answer (qa : List (String × String))
    (q a input : String)
    (hnd : NodupKeys qa)
    (hmem : (q, a) ∈ qa)
    (htok : tokenize input = tokenize q)
    (hS : sqMag (tfidf_from_tokens (compute_tfidf qa).2 (tokenize q)) ≠ 0)
    (hoth : ∀ p ∈ (compute_tfidf qa).1, p.1 ≠ q →
      Flt.gtR (.fin 1) (cosine_similarity
        (compute_input_vector input (compute_tfidf qa).2) p.2) ∨
      cosine_similarity
        (compute_input_vector input (compute_tfidf qa).2) p.2 = .nan) :
    cosine_similarity (compute_input_vector input (compute_tfidf qa).2)
      (tfidf_from_tokens (compute_tfidf qa).2 (tokenize q)) = .fin 1 ∧
    get_response qa (compute_tfidf qa).1 (compute_tfidf qa).2 input =
      some a := by
  have hiv : compute_input_vector input (compute_tfidf qa).2 =
      tfidf_from_tokens (compute_tfidf qa).2 (tokenize q) := by
    unfold compute_input_vector
    rw [htok]
  have hcos : cosine_similarity
      (compute_input_vector input (compute_tfidf qa).2)
      (tfidf_from_tokens (compute_tfidf qa).2 (tokenize q)) = .fin 1 := by
    rw [hiv]
    exact cosine_self _ (nodupKeys_tfidf_from_tokens _ _) hS
  refine ⟨hcos, ?_⟩
  have hmemv : (q, tfidf_from_tokens (compute_tfidf qa).2 (tokenize q)) ∈
      (compute_tfidf qa).1 :=
    List.mem_map.mpr ⟨(q, a), hmem, rfl⟩
  have hkey : ∀ p ∈ (compute_tfidf qa).1, p.1 = q →
      p.2 = tfidf_from_tokens (compute_tfidf qa).2 (tokenize q) := by
    intro p hp hpq
    obtain ⟨r, hr, rfl⟩ := List.mem_map.mp hp
    have hq : r.1 = q := hpq
    exact congrArg
      (fun s => tfidf_from_tokens (compute_tfidf qa).2 (tokenize s)) hq
  have hbo := bestOf_unique_max
    (compute_input_vector input (compute_tfidf qa).2) (compute_tfidf qa).1
    q (tfidf_from_tokens (compute_tfidf qa).2 (tokenize q))
    hmemv hcos hkey hoth
  rw [get_response_of_bestOf _ _ _ _ _ _ hbo,
    if_pos ((Flt.gtR_fin_iff _ _).mpr (by norm_num)),
    alookup_of_mem qa q a hnd hmem]

/-- Witness for the amended C1: the two-question catalog
`[("alpha", "A1"), ("gamma", "A2")]` has IDF `ln 2 > 0` for both tokens;
the query `"alpha"` scores exactly 1.0 against its question and strictly
below 1.0 against the other, and receives the stored answer `"A1"`. -/
theorem identical_query_returns_answer_witness :
    cosine_similarity
      (compute_input_vector "alpha"
        (compute_tfidf [("alpha", "A1"), ("gamma", "A2")]).2)
      (tfidf_from_tokens (compute_tfidf [("alpha", "A1"), ("gamma", "A2")]).2
        (tokenize "alpha")) = .fin 1 ∧
    get_response [("alpha", "A1"), ("gamma", "A2")]
      (compute_tfidf [("alpha", "A1"), ("gamma", "A2")]).1
      (compute_tfidf [("alpha", "A1"), ("gamma", "A2")]).2 "alpha" =
      some "A1" := by
  have hl : (0 : ℝ) < Real.log 2 := Real.log_pos one_lt_two
  have hidf : (compute_tfidf [("alpha", "A1"), ("gamma", "A2")]).2 =
      [("alpha", Real.log 2), ("gamma", Real.log 2)] := by
    show compute_idf ["alpha", "gamma"] = _
    unfold compute_idf
    rw [show word_doc_count ["alpha", "gamma"] =
      [("alpha", 1), ("gamma", 1)] from rfl]
    norm_num
  have hvq : tfidf_from_tokens [("alpha", Real.log 2), ("gamma", Real.log 2)]
      ["alpha"] = [("alpha", Real.log 2)] := by
    unfold tfidf_from_tokens
    rw [show tf_counts ["alpha"] = [("alpha", 1)] from rfl]
    norm_num [vget]
  have hvg : tfidf_from_tokens [("alpha", Real.log 2), ("gamma", Real.log 2)]
      ["gamma"] = [("gamma", Real.log 2)] := by
    unfold tfidf_from_tokens
    rw [show tf_counts ["gamma"] = [("gamma", 1)] from rfl]
    norm_num [vget]
  have hS : sqMag (tfidf_from_tokens
      (compute_tfidf [("alpha", "A1"), ("gamma", "A2")]).2
      (tokenize "alpha")) ≠ 0 := by
    rw [show tokenize "alpha" = ["alpha"] from rfl, hidf, hvq]
    simp only [sqMag, List.map_cons, List.map_nil, List.sum_cons,
      List.sum_nil]
    intro hcon
    nlinarith [hl]
  have hvecs : (compute_tfidf [("alpha", "A1"), ("gamma", "A2")]).1 =
      [("alpha", [("alpha", Real.log 2)]),
        ("gamma", [("gamma", Real.log 2)])] := by
    show [("alpha", tfidf_from_tokens
        (compute_tfidf [("alpha", "A1"), ("gamma", "A2")]).2
        (tokenize "alpha")),
      ("gamma", tfidf_from_tokens
        (compute_tfidf [("alpha", "A1"), ("gamma", "A2")]).2
        (tokenize "gamma"))] = _
    rw [show tokenize "alpha" = ["alpha"] from rfl,
      show tokenize "gamma" = ["gamma"] from rfl, hidf, hvq, hvg]
  have hiv2 : compute_input_vector "alpha"
      (compute_tfidf [("alpha", "A1"), ("gamma", "A2")]).2 =
      [("alpha", Real.log 2)] := by
    show tfidf_from_tokens
      (compute_tfidf [("alpha", "A1"), ("gamma", "A2")]).2
      (tokenize "alpha") = _
    rw [show tokenize "alpha" = ["alpha"] from rfl, hidf, hvq]
  have hcosg : cosine_similarity [("alpha", Real.log 2)]
      [("gamma", Real.log 2)] = .fin 0 := by
    unfold cosine_similarity
    have hvga : vget [("gamma", Real.log 2)] "alpha" = 0 := by
      rw [vget_cons_ne _ _ _ _ (by decide)]
      rfl
    rw [show dotP [("alpha", Real.log 2)] [("gamma", Real.log 2)] = 0 from
      by norm_num [dotP, hvga]]
    rw [show sqMag [("alpha", Real.log 2)] = Real.log 2 * Real.log 2 from
      by norm_num [sqMag]]
    rw [show sqMag [("gamma", Real.log 2)] = Real.log 2 * Real.log 2 from
      by norm_num [sqMag]]
    have hmagpos : (0 : ℝ) < Real.sqrt (Real.log 2 * Real.log 2) *
        Real.sqrt (Real.log 2 * Real.log 2) := by
      have hsp := Real.sqrt_pos.mpr (mul_pos hl hl)
      nlinarith [hsp]
    rw [fdiv_fin _ _ (ne_of_gt hmagpos)]
    norm_num
  have hoth : ∀ p ∈ (compute_tfidf [("alpha", "A1"), ("gamma", "A2")]).1,
      p.1 ≠ "alpha" →
      Flt.gtR (.fin 1) (cosine_similarity
        (compute_input_vector "alpha"
          (compute_tfidf [("alpha", "A1"), ("gamma", "A2")]).2) p.2) ∨
      cosine_similarity
        (compute_input_vector "alpha"
          (compute_tfidf [("alpha", "A1"), ("gamma", "A2")]).2) p.2 =
        .nan := by
    intro p hp hne
    rw [hvecs] at hp
    rcases List.mem_cons.mp hp with h1 | h2
    · exact absurd (congrArg Prod.fst h1) hne
    · rw [List.mem_singleton] at h2
      left
      have hp2 : p.2 = [("gamma", Real.log 2)] := by rw [h2]
      rw [hp2, hiv2, hcosg]
      exact (Flt.gtR_fin_iff _ _).mpr (by norm_num)
  exact identical_query_returns_answer [("alpha", "A1"), ("gamma", "A2")]
    "alpha" "A1" "alpha" (by decide) (by decide) rfl hS hoth

/-- C8 counterexample: a parsed document with no `"questions"` collection,
and one whose single entry lacks a string `"answer"` field, are schema
mismatches — the claim says `initialize_qa_data` returns an error for them,
but it returns `Ok` (an empty catalog, the offending parts silently
skipped). -/
theorem schema_mismatch_not_error :
    initialize_qa_data (some (.ok (.obj []))) = .ok [] ∧
    initialize_qa_data (some (.ok (.obj [("questions",
      .arr [.obj [("question", .str "q")]])]))) = .ok [] :=
  ⟨rfl, rfl⟩

/-- C8 amended: `initialize_qa_data` fails exactly when the catalog source
is missing (`File::open` error) or its contents fail JSON parsing; every
successfully parsed document — including schema mismatches such as a
missing `"questions"` collection or entries without string
`"question"`/`"answer"` fields — yields `Ok`, with the non-conforming parts
silently skipped. -/
theorem initialize_qa_data_ok_iff (file : Option (Except Unit Json)) :
    (∃ m, initialize_qa_data file = .ok m) ↔ (∃ j, file = some (.ok j)) := by
  cases file with
  | none => simp [initialize_qa_data]
  | some r =>
    cases r with
    | error e => simp [initialize_qa_data]
    | ok j => simp [initialize_qa_data]

end TBot
